import Mathlib

/-!
Verification development for the OWL ontology tooling repository
(getbranch.py, app.py, OntoSearch.py).

The Python sources are shallowly embedded: XML class elements become the
`OwlClass` structure, Python dicts become insertion-ordered association
lists (`Dict`), Python sets become membership-deduplicated lists, and the
recursive traversals become fuel-indexed structural recursions (the fuel
chosen large enough that the recursion always completes exactly as the
Python recursion does; all universally-quantified theorems below hold for
every fuel value).  Python string primitives (strip, split, join,
endswith, enumerate) are embedded as executable functions on `List Char`.
-/

namespace OwlTools

/-- Python dict with string keys: an insertion-ordered association list. -/
abbrev Dict (α : Type) := List (String × α)

/-- Python `d.get(k)` / `d[k]`: first (unique) binding of `k`. -/
def dictGet {α : Type} (k : String) : Dict α → Option α
  | [] => none
  | p :: d => if p.1 = k then some p.2 else dictGet k d

/-- Python `d[k] = v`: overwrite in place (keeping key position) or append. -/
def dictInsert {α : Type} (k : String) (v : α) : Dict α → Dict α
  | [] => [(k, v)]
  | p :: d => if p.1 = k then (k, v) :: d else p :: dictInsert k v d

/-- Python `d.setdefault(k, []).append(v)`. -/
def dictAppendAt {β : Type} (k : String) (v : β) : Dict (List β) → Dict (List β)
  | [] => [(k, [v])]
  | p :: d => if p.1 = k then (p.1, p.2 ++ [v]) :: d else p :: dictAppendAt k v d

/-- Python `d.keys()` in insertion order. -/
def dictKeys {α : Type} (d : Dict α) : List String := d.map Prod.fst

/-- Python `d.values()` in insertion order. -/
def dictValues {α : Type} (d : Dict α) : List α := d.map Prod.snd

/-- Embedding of Python `str.strip()` on the character list. -/
def trimCh (l : List Char) : List Char :=
  ((l.dropWhile Char.isWhitespace).reverse.dropWhile Char.isWhitespace).reverse

/-- Embedding of Python `str.strip()`. -/
def pyStrip (s : String) : String := ⟨trimCh s.data⟩

/-- Embedding of Python `enumerate` starting at index `i`. -/
def enumerateFrom {α : Type} (i : Nat) : List α → List (Nat × α)
  | [] => []
  | a :: l => (i, a) :: enumerateFrom (i + 1) l

/-- Embedding of Python `enumerate(l)`. -/
def enumerate {α : Type} (l : List α) : List (Nat × α) := enumerateFrom 0 l

/-- Embedding of Python `str.endswith(suffix)`. -/
def pyEndsWith (s suffix : String) : Bool := suffix.data.isSuffixOf s.data

/-- Splitter for Python `text.split(chr(10))`: accumulates the current
segment (reversed) and cuts at every newline character. -/
def splitLinesCh : List Char → List Char → List (List Char)
  | [], acc => [acc.reverse]
  | c :: cs, acc =>
    if c = '\n' then acc.reverse :: splitLinesCh cs []
    else splitLinesCh cs (c :: acc)

/-- Embedding of Python `text.split(chr(10))`. -/
def splitLines (s : String) : List String := (splitLinesCh s.data []).map (fun l => ⟨l⟩)

/-- Joiner for Python `chr(10).join(lines)` on character lists. -/
def joinLinesCh : List (List Char) → List Char
  | [] => []
  | [l] => l
  | l :: ls => l ++ '\n' :: joinLinesCh ls

/-- Embedding of Python `chr(10).join(lines)`. -/
def joinLines (ls : List String) : String := ⟨joinLinesCh (ls.map String.data)⟩

/-- One `owl:Class` element of the parsed document.  `Option (Option String)`
fields model lxml element access: outer `none` = element absent, inner
`none` = element present with `text` equal to Python `None` (an empty
element), `some t` = element present with text `t`. -/
structure OwlClass where
  about : Option String
  mendel : Option (Option String)
  label : Option (Option String)
  subs : List (Option String)
  codes : Option (Option String)
deriving DecidableEq, Repr

/-- The Mendel identifier a class contributes to the graph maps:
`some` exactly when the `rdf:about`-independent check
`mendel_id_elem is not None and mendel_id_elem.text` passes, in which
case the key is `mendel_id_elem.text.strip()`. -/
def mendelKey (c : OwlClass) : Option String :=
  match c.mendel with
  | some (some t) => if t = "" then none else some (pyStrip t)
  | _ => none

/-- Python truthiness of the `rdf:about` attribute (`if not about: continue`). -/
def aboutTruthy (c : OwlClass) : Bool :=
  match c.about with
  | some ab => ab ≠ ""
  | none => false

/-- Loop body of the first pass of `extract_children` / `extract_parents`
(getbranch.py lines 30-41 and 94-105): a class with a truthy about and a
truthy Mendel_ID text is recorded in both maps. -/
def firstPassStep (maps : Dict OwlClass × Dict String) (c : OwlClass) :
    Dict OwlClass × Dict String :=
  match c.about with
  | none => maps
  | some ab =>
    if ab = "" then maps
    else
      match c.mendel with
      | some (some t) =>
        if t = "" then maps
        else (dictInsert (pyStrip t) c maps.1, dictInsert ab (pyStrip t) maps.2)
      | _ => maps

/-- First pass of `extract_children` / `extract_parents`
(getbranch.py lines 29-41 and 93-105): builds `mendel_id_to_node` and
`about_to_mendel_id` in one scan over all class elements. -/
def firstPass (classes : List OwlClass) : Dict OwlClass × Dict String :=
  classes.foldl firstPassStep ([], [])

/-- `mendel_id_to_node` map of getbranch.py. -/
def mendel_id_to_node (classes : List OwlClass) : Dict OwlClass := (firstPass classes).1

/-- `about_to_mendel_id` map of getbranch.py. -/
def about_to_mendel_id (classes : List OwlClass) : Dict String := (firstPass classes).2

/-- Handling of one `subClassOf` element for `child_to_parents`
(getbranch.py lines 114-118): a truthy resource that resolves through
`about_to_mendel_id` appends the parent id under the child id. -/
def childEdgeStep (a : Dict String) (childKey : String) (adj : Dict (List String))
    (res : Option String) : Dict (List String) :=
  match res with
  | some r =>
    if r = "" then adj
    else
      match dictGet r a with
      | some parentId => dictAppendAt childKey parentId adj
      | none => adj
  | none => adj

/-- Handling of one `subClassOf` element for `parent_to_children`
(getbranch.py lines 50-54): the child id is appended under the parent id. -/
def parentEdgeStep (a : Dict String) (childKey : String) (adj : Dict (List String))
    (res : Option String) : Dict (List String) :=
  match res with
  | some r =>
    if r = "" then adj
    else
      match dictGet r a with
      | some parentId => dictAppendAt parentId childKey adj
      | none => adj
  | none => adj

/-- Loop body over one indexed node in the second pass of `extract_parents`
(getbranch.py lines 108-118). -/
def childNodeStep (a : Dict String) (adj : Dict (List String)) (node : OwlClass) :
    Dict (List String) :=
  match node.mendel with
  | some (some t) =>
    if t = "" then adj
    else node.subs.foldl (childEdgeStep a (pyStrip t)) adj
  | _ => adj

/-- Loop body over one indexed node in the second pass of `extract_children`
(getbranch.py lines 44-54). -/
def parentNodeStep (a : Dict String) (adj : Dict (List String)) (node : OwlClass) :
    Dict (List String) :=
  match node.mendel with
  | some (some t) =>
    if t = "" then adj
    else node.subs.foldl (parentEdgeStep a (pyStrip t)) adj
  | _ => adj

/-- Second pass of `extract_parents` (getbranch.py lines 107-118):
builds `child_to_parents` from the `subClassOf` edges of the indexed nodes. -/
def child_to_parents (classes : List OwlClass) : Dict (List String) :=
  (dictValues (mendel_id_to_node classes)).foldl
    (childNodeStep (about_to_mendel_id classes)) []

/-- Second pass of `extract_children` (getbranch.py lines 43-54):
builds `parent_to_children` from the `subClassOf` edges of the indexed nodes. -/
def parent_to_children (classes : List OwlClass) : Dict (List String) :=
  (dictValues (mendel_id_to_node classes)).foldl
    (parentNodeStep (about_to_mendel_id classes)) []

/-- Python `adjacency.get(id, [])`. -/
def adjGet (adj : Dict (List String)) (id : String) : List String :=
  (dictGet id adj).getD []

/-- One directed edge of an adjacency map. -/
def edgeOf (adj : Dict (List String)) (a b : String) : Prop := b ∈ adjGet adj a

/-- The adjacency contains no directed cycle. -/
def Acyclic (adj : Dict (List String)) : Prop :=
  ∀ a, ¬ Relation.TransGen (edgeOf adj) a a

/-- `get_descendants` of getbranch.py (lines 57-63): depth-first collection
of all identifiers reachable through the forward adjacency, with a shared
`collected` set guarding revisits.  The fuel bounds the recursion depth;
`extract_children` supplies a fuel that always suffices. -/
def get_descendants (adj : Dict (List String)) : Nat → String → List String → List String
  | 0, _, collected => collected
  | fuel + 1, currentId, collected =>
    (adjGet adj currentId).foldl
      (fun collected childId =>
        if childId ∈ collected then collected
        else get_descendants adj fuel childId (childId :: collected))
      collected

/-- Python `label_elem.text.strip() if label_elem is not None and label_elem.text
else` the `No label` sentinel (getbranch.py lines 73-74 and 149-150). -/
def label_text (c : OwlClass) : String :=
  match c.label with
  | some (some t) => if t = "" then "No label" else pyStrip t
  | _ => "No label"

/-- Fuel used by `extract_children`: the DFS adds at least one new
identifier per nested call, and at most `classes.length` identifiers exist. -/
def descendantsFuel (classes : List OwlClass) : Nat := classes.length + 1

/-- The collected descendant identifier set of `extract_children`
(getbranch.py lines 65-66). -/
def descendant_closure (classes : List OwlClass) (mendelId : String) : List String :=
  get_descendants (parent_to_children classes) (descendantsFuel classes) mendelId []

/-- `extract_children` of getbranch.py (lines 16-77).  Python iterates the
`collected_ids` set in unspecified set order; this embedding iterates it in
collection order — every claim below about this function is order-independent. -/
def extract_children (classes : List OwlClass) (mendelId : String) :
    List (String × String × String) :=
  let m := mendel_id_to_node classes
  (descendant_closure classes mendelId).foldl
    (fun acc id =>
      acc ++
        match dictGet id m with
        | some node => [(id, label_text node, label_text node ++ "::" ++ id)]
        | none => [])
    []

/-- `get_ancestor_paths` of getbranch.py (lines 121-134): depth-first
enumeration of ancestor paths along the reverse adjacency.  `visited`
holds the identifiers on the current recursion stack (added on entry,
removed on exit — here passed down extended), `currentPath` the parent
identifiers accumulated so far; a node with no parents records the
accumulated path.  The fuel bounds the recursion depth; `extract_parents`
supplies a fuel that always suffices. -/
def get_ancestor_paths (adj : Dict (List String)) :
    Nat → String → List String → List String → List (List String)
  | 0, _, _, _ => []
  | fuel + 1, currentId, currentPath, visited =>
    if currentId ∈ visited then []
    else
      match adjGet adj currentId with
      | [] => [currentPath]
      | p :: ps =>
        (p :: ps).foldl
          (fun acc parentId =>
            acc ++
              get_ancestor_paths adj fuel parentId (currentPath ++ [parentId])
                (currentId :: visited))
          []

/-- Fuel used by `extract_parents`: the visited stack grows by one distinct
identifier per nested call, and at most `classes.length + 1` identifiers
(graph identifiers plus the start) can appear on it. -/
def ancestorsFuel (classes : List OwlClass) : Nat := classes.length + 2

/-- The `all_paths` list computed inside `extract_parents`
(getbranch.py lines 136-138). -/
def all_ancestor_paths (classes : List OwlClass) (start : String) : List (List String) :=
  get_ancestor_paths (child_to_parents classes) (ancestorsFuel classes) start [] []

/-- One row of the leveled parents table:
(mendel id, label, label::id, level). -/
abbrev PEntry := String × String × String × Nat

/-- Leveling of one recorded path (getbranch.py lines 142-151): the path is
reversed to root-first order and enumerated, and each identifier found in
the node index contributes one leveled row. -/
def levelEntries (m : Dict OwlClass) (path : List String) : List PEntry :=
  (enumerate path.reverse).filterMap
    (fun li =>
      match dictGet li.2 m with
      | some node => some (li.2, label_text node, label_text node ++ "::" ++ li.2, li.1)
      | none => none)

/-- The flattened leveled `parents` list of `extract_parents`
(getbranch.py lines 140-151), before deduplication. -/
def flat_leveled (classes : List OwlClass) (start : String) : List PEntry :=
  (all_ancestor_paths classes start).foldl
    (fun acc p => acc ++ levelEntries (mendel_id_to_node classes) p)
    []

/-- Duplicate removal of `extract_parents` (getbranch.py lines 153-159):
keep the first row seen for each identifier, preserving order. -/
def dedup_by_id : List PEntry → List String → List PEntry
  | [], _ => []
  | e :: rest, seen =>
    if e.1 ∈ seen then dedup_by_id rest seen
    else e :: dedup_by_id rest (e.1 :: seen)

/-- `extract_parents` of getbranch.py (lines 80-161). -/
def extract_parents (classes : List OwlClass) (start : String) : List PEntry :=
  dedup_by_id (flat_leveled classes start) []

/-- Outcome of the presentation branch after an extraction: rows when the
result is non-empty, a caller-visible warning otherwise. -/
inductive Outcome (α : Type) where
  | rows (entries : List α)
  | warning (msg : String)
deriving DecidableEq

/-- The children branch of the getbranch.py page (lines 199-206):
an empty extraction surfaces a warning, a non-empty one surfaces rows. -/
def childrenOutcome (classes : List OwlClass) (id : String) :
    Outcome (String × String × String) :=
  match extract_children classes id with
  | [] => .warning ("No data extracted for the given Root Mendel ID: " ++ id)
  | e :: es => .rows (e :: es)

/-- The parents branch of the getbranch.py page (lines 248-255). -/
def parentsOutcome (classes : List OwlClass) (id : String) : Outcome PEntry :=
  match extract_parents classes id with
  | [] => .warning ("No parents found for the given Mendel ID: " ++ id)
  | e :: es => .rows (e :: es)

/-! ### Match engine (OntoSearch.py) -/

/-- `clean_code` of `process_owl_file_code_value_search` (OntoSearch.py
lines 539-540): drop every character outside `[A-Za-z0-9]`, then lowercase. -/
def clean_code (s : String) : String :=
  ⟨(s.data.filter Char.isAlphanum).map Char.toLower⟩

/-- Code-value isolation of the relaxed search (OntoSearch.py lines 604-612):
everything after the first `:` (rejoined parts), stripped; the whole entry,
stripped, when no `:` occurs. -/
def code_value (entry : String) : String :=
  if ':' ∈ entry.data then ⟨trimCh (entry.data.dropWhile (fun c => c ≠ ':')).tail⟩
  else ⟨trimCh entry.data⟩

/-- The matched stored codes of one class in the relaxed code-value search
(OntoSearch.py lines 602-620): a stored entry matches when its cleaned
code value equals the cleaned form of some input term. -/
def relaxed_matched_codes (codes_list : List String) (inputTerms : List String) :
    List String :=
  codes_list.filter
    (fun entry => clean_code (code_value entry) ∈ inputTerms.map clean_code)

/-! ### Document loader (OntoSearch.py lines 157-163, app.py lines 12-17) -/

/-- Locating the ontology file inside the archive listing: the first name
ending in a recognized ontology extension wins; an archive with none fails
with the NotFound-class error (raised in OntoSearch.py, surfaced via
`st.error` in app.py). -/
def locateOwlFile (names : List String) : Except String String :=
  match names.filter (fun n => pyEndsWith n ".owl" || pyEndsWith n ".xml") with
  | [] => .error "No OWL file found in the ZIP archive."
  | n :: _ => .ok n

/-! ### Field extraction (OntoSearch.py lines 750-756) -/

/-- `get_mendel_id` of OntoSearch.py: `mendel_id_elems[0].text.strip()` when
an element exists, `None` otherwise.  When the element exists but its text
is Python `None` (an empty element), the unguarded `.strip()` raises
`AttributeError`; the embedding returns that failure in `Except`. -/
def get_mendel_id (cls : OwlClass) : Except String (Option String) :=
  match cls.mendel with
  | none => .ok none
  | some none => .error "AttributeError: NoneType object has no attribute strip"
  | some (some t) => .ok (some (pyStrip t))

/-! ### Mutation engine: update codes (app.py lines 154-269) -/

/-- Python set-with-first-seen-order: deduplicate keeping first occurrences. -/
def pyDedupAux : List String → List String → List String
  | [], _ => []
  | x :: rest, seen =>
    if x ∈ seen then pyDedupAux rest seen
    else x :: pyDedupAux rest (x :: seen)

/-- Deduplicated element list of a Python set built from `l`. -/
def pyDedup (l : List String) : List String := pyDedupAux l []

/-- Lexicographic comparison of character lists by code point, the order
Python `sorted` uses on strings. -/
def lexLe : List Char → List Char → Bool
  | [], _ => true
  | _ :: _, [] => false
  | a :: as, b :: bs => if a < b then true else if b < a then false else lexLe as bs

/-- Python string `<=` (code-point lexicographic). -/
abbrev pyLe (a b : String) : Prop := lexLe a.data b.data = true

/-- Python `sorted` on strings (ascending lexicographic order). -/
def py_sorted (l : List String) : List String :=
  List.insertionSort (fun a b => pyLe a b) l

/-- Tokenization of an existing Codes element (app.py line 242):
split on newlines, strip, drop empty tokens. -/
def tokenizeCodes (text : String) : List String :=
  ((splitLines text).map pyStrip).filter (fun s => s ≠ "")

/-- The merged Codes text of app.py lines 241-246: the sorted,
newline-joined set union of the existing tokens and the supplied codes. -/
def mergeCodes (existingText : String) (newCodes : List String) : String :=
  joinLines (py_sorted (pyDedup (tokenizeCodes existingText ++ newCodes)))

/-- Per-class step of `process_update_codes` (app.py lines 214-263).
A class whose Mendel_ID element is present but empty hits the unguarded
`mendel_id_elem.text.strip()` (line 229) and raises; otherwise the class is
returned, with its Codes element merged (lines 239-246) or created
(lines 248-251) when its Mendel ID has supplied codes. -/
def update_codes_for_class (mendel_id_to_codes : Dict (List String)) (cls : OwlClass) :
    Except String OwlClass :=
  match cls.mendel with
  | none => .ok cls
  | some none => .error "AttributeError: NoneType object has no attribute strip"
  | some (some t) =>
    match dictGet (pyStrip t) mendel_id_to_codes with
    | none => .ok cls
    | some codes_list =>
      match cls.codes with
      | some ctext =>
        .ok { cls with codes := some (some (mergeCodes (ctext.getD "") codes_list)) }
      | none =>
        .ok { cls with codes := some (some (joinLines (py_sorted (pyDedup codes_list)))) }

/-! ### Mutation engine: add new classes (app.py lines 40-119) -/

/-- One row of the batch-edit spreadsheet for `process_add_new_classes`.
`none` models a NaN (missing) cell; a column absent from the sheet is
modelled the same way, since both skip the property. -/
structure EditRow where
  labelCell : Option String
  parentCell : String
  codeCell : Option String
  synonymsCell : Option String
  mendelIdCell : Option String
deriving DecidableEq, Repr

/-- app.py line 72: the effective label of a row — `None` when the cell is
NaN or strips to empty, the stripped text otherwise. -/
def effLabel (r : EditRow) : Option String :=
  match r.labelCell with
  | none => none
  | some s => if pyStrip s = "" then none else some (pyStrip s)

/-- app.py line 90: the effective value of an optional property cell. -/
def effCell (c : Option String) : Option String :=
  match c with
  | none => none
  | some s => if pyStrip s = "" then none else some (pyStrip s)

/-- Python `label.replace(, _)`: each space becomes an underscore. -/
def replaceSpaces (s : String) : String :=
  ⟨s.data.map (fun c => if c = ' ' then '_' else c)⟩

/-- The new class element synthesized for one row (app.py lines 76-97). -/
structure NewClassElem where
  aboutUri : String
  subClassOfResource : String
  labelValue : String
  props : List (String × String)
  umlsCui : String
deriving DecidableEq, Repr

/-- Synthesis of the new class element for a row with effective label `lbl`
(app.py lines 76-97): fresh about URI derived from the label, subClassOf
edge to the parent URI, label element, the non-empty optional properties,
and a UMLS_CUI equal to the label. -/
def buildNewClass (r : EditRow) (lbl : String) : NewClassElem :=
  { aboutUri := "http://www.co-ode.org/ontologies/ont.owl#" ++ replaceSpaces lbl
    subClassOfResource := "http://www.semanticweb.org/amr/ontologies/2018/" ++ r.parentCell
    labelValue := lbl
    props :=
      [("Code", effCell r.codeCell), ("Synonyms", effCell r.synonymsCell),
        ("Mendel_ID", effCell r.mendelIdCell)].filterMap
        (fun pv => pv.2.map (fun v => (pv.1, v)))
    umlsCui := lbl }

/-- Row loop of `process_add_new_classes` (app.py lines 66-113), carrying
the 0-based row index for the log lines: a row with an effective label
appends one new class element and an added-log line; a row without one is
skipped with a skip-log line. -/
def processRows : Nat → List EditRow → List NewClassElem × List String
  | _, [] => ([], [])
  | i, r :: rest =>
    let done := processRows (i + 1) rest
    match effLabel r with
    | some lbl =>
      (buildNewClass r lbl :: done.1,
        ("Added new class for " ++ lbl ++ " under parent " ++ r.parentCell ++ ".") ::
          done.2)
    | none =>
      (done.1, ("Skipped row " ++ toString (i + 1) ++ ": Label is missing.") :: done.2)

/-- `process_add_new_classes` of app.py restricted to its produced class
elements and log lines. -/
def process_add_new_classes (rows : List EditRow) : List NewClassElem × List String :=
  processRows 0 rows

/-- An identifier occurring anywhere in an adjacency map, as key or as a
member of some edge list. -/
def idInAdj (adj : Dict (List String)) (id : String) : Prop :=
  id ∈ dictKeys adj ∨ ∃ q ∈ adj, id ∈ q.2

instance (adj : Dict (List String)) (id : String) : Decidable (idInAdj adj id) := by
  unfold idInAdj
  infer_instance

/-- A class of the document that carries both a truthy `rdf:about` and a
truthy `Mendel_ID`, the latter stripping to `id` — what claim C9 calls an
identifier belonging to a well-identified class element. -/
def GoodId (classes : List OwlClass) (id : String) : Prop :=
  ∃ c ∈ classes, aboutTruthy c = true ∧ mendelKey c = some id

/-- The parent chain shape of a recorded ancestor path: each identifier is
a parent (reverse-adjacency successor) of the previous one, starting from
`start`. -/
def chainFrom (adj : Dict (List String)) : String → List String → Prop
  | _, [] => True
  | c, p :: rest => p ∈ adjGet adj c ∧ chainFrom adj p rest

/-- Joint invariant of the two first-pass maps. -/
def FirstPassInv (classes : List OwlClass) (maps : Dict OwlClass × Dict String) : Prop :=
  (∀ p ∈ maps.1, p.2 ∈ classes ∧ aboutTruthy p.2 = true ∧ mendelKey p.2 = some p.1) ∧
  (∀ q ∈ maps.2,
    (∃ c ∈ classes, c.about = some q.1 ∧ q.1 ≠ "" ∧ mendelKey c = some q.2) ∧
    ∃ w, (q.2, w) ∈ maps.1)

/-- An identifier carried by the graph maps: it belongs to a class with
truthy about and Mendel_ID, and it is a key of `mendel_id_to_node`. -/
def CarriedId (classes : List OwlClass) (id : String) : Prop :=
  GoodId classes id ∧ ∃ w, (id, w) ∈ mendel_id_to_node classes

/-- Every key and every list member of an adjacency map satisfies `CarriedId`. -/
def AdjInv (classes : List OwlClass) (adj : Dict (List String)) : Prop :=
  ∀ q ∈ adj, CarriedId classes q.1 ∧ ∀ b ∈ q.2, CarriedId classes b

/-! ### Concrete example documents used by the claim theorems -/

/-- Two classes: A subClassOf B, B a root. -/
def exTwoChain : List OwlClass :=
  [ { about := some "a", mendel := some (some "A"), label := none,
      subs := [some "b"], codes := none },
    { about := some "b", mendel := some (some "B"), label := none,
      subs := [], codes := none } ]

/-- Root R with one child A (for the descendant-closure claims). -/
def exRootChild : List OwlClass :=
  [ { about := some "r", mendel := some (some "R"), label := none,
      subs := [], codes := none },
    { about := some "a", mendel := some (some "A"), label := none,
      subs := [some "r"], codes := none } ]

/-- Multiple-inheritance diamond: W subClassOf X; X subClassOf A and B;
A and B both subClassOf root R. -/
def exDiamond : List OwlClass :=
  [ { about := some "w", mendel := some (some "W"), label := none,
      subs := [some "x"], codes := none },
    { about := some "x", mendel := some (some "X"), label := none,
      subs := [some "a", some "b"], codes := none },
    { about := some "a", mendel := some (some "A"), label := none,
      subs := [some "r"], codes := none },
    { about := some "b", mendel := some (some "B"), label := none,
      subs := [some "r"], codes := none },
    { about := some "r", mendel := some (some "R"), label := none,
      subs := [], codes := none } ]

/-- A subClassOf edge to a class that exists with an about but carries no
Mendel_ID: the target cannot enter the identifier maps. -/
def exTargetNoMendel : List OwlClass :=
  [ { about := some "x", mendel := some (some "1"), label := none,
      subs := [some "y"], codes := none },
    { about := some "y", mendel := none, label := none,
      subs := [], codes := none } ]

/-- A dangling subClassOf edge: the resource resolves to no class at all. -/
def exDangling : List OwlClass :=
  [ { about := some "x", mendel := some (some "1"), label := none,
      subs := [some "zzz"], codes := none } ]

/-- A class whose Mendel_ID element is present but empty (text `None`). -/
def exEmptyMendel : OwlClass :=
  { about := some "x", mendel := some none, label := none, subs := [], codes := none }

/-- A class with no Mendel_ID element at all. -/
def exNoMendel : OwlClass :=
  { about := some "x", mendel := none, label := none, subs := [], codes := none }

/-- A batch-edit row whose label strips to empty. -/
def exRowNoLabel : EditRow :=
  { labelCell := some "  ", parentCell := "P", codeCell := none,
    synonymsCell := none, mendelIdCell := none }

/-- A batch-edit row with a proper label. -/
def exRowLabeled : EditRow :=
  { labelCell := some "Asthma", parentCell := "P", codeCell := none,
    synonymsCell := none, mendelIdCell := none }

/-! ## Helper lemmas -/

theorem foldl_append_flatMap {α β : Type} (f : α → List β) :
    ∀ (l : List α) (acc : List β),
      l.foldl (fun a x => a ++ f x) acc = acc ++ l.flatMap f := by
  intro l
  induction l with
  | nil => simp
  | cons x xs ih => intro acc; simp [ih, List.flatMap_cons]

theorem foldl_invariant {α β : Type} (Inv : β → Prop) (f : β → α → β) (l : List α)
    (hstep : ∀ acc x, x ∈ l → Inv acc → Inv (f acc x)) :
    ∀ acc, Inv acc → Inv (l.foldl f acc) := by
  induction l with
  | nil => intro acc h; simpa using h
  | cons x xs ih =>
    intro acc h
    rw [List.foldl_cons]
    exact ih (fun a y hy ha => hstep a y (List.mem_cons_of_mem _ hy) ha) _
      (hstep acc x (List.mem_cons_self _ _) h)

theorem mem_dictInsert {α : Type} (k : String) (v : α) :
    ∀ (d : Dict α) (p : String × α), p ∈ dictInsert k v d → p ∈ d ∨ p = (k, v) := by
  intro d
  induction d with
  | nil => intro p hp; simp [dictInsert] at hp; right; exact hp
  | cons q d ih =>
    intro p hp
    by_cases hq : q.1 = k
    · simp [dictInsert, hq] at hp
      rcases hp with h | h
      · right; simpa using h
      · left; exact List.mem_cons_of_mem _ h
    · simp [dictInsert, hq] at hp
      rcases hp with h | h
      · left; simp [h]
      · rcases ih p h with h2 | h2
        · left; exact List.mem_cons_of_mem _ h2
        · right; exact h2

theorem mem_dictKeys {α : Type} (d : Dict α) (x : String) :
    x ∈ dictKeys d ↔ ∃ v, (x, v) ∈ d := by
  constructor
  · intro hx
    rcases List.mem_map.mp hx with ⟨p, hp, he⟩
    exact ⟨p.2, by rwa [show (x, p.2) = p from Prod.ext he.symm rfl]⟩
  · rintro ⟨v, hv⟩
    exact List.mem_map.mpr ⟨(x, v), hv, rfl⟩

theorem dictInsert_mem_self {α : Type} (k : String) (v : α) :
    ∀ (d : Dict α), (k, v) ∈ dictInsert k v d := by
  intro d
  induction d with
  | nil => simp [dictInsert]
  | cons q d ih =>
    by_cases hq : q.1 = k
    · simp [dictInsert, hq]
    · simp only [dictInsert, hq, if_false]
      exact List.mem_cons_of_mem _ ih

theorem dictInsert_key_preserved {α : Type} (k : String) (v : α) :
    ∀ (d : Dict α) (x : String) (w : α), (x, w) ∈ d →
      ∃ u, (x, u) ∈ dictInsert k v d := by
  intro d
  induction d with
  | nil => intro x w hx; simp at hx
  | cons q d ih =>
    intro x w hx
    by_cases hq : q.1 = k
    · rcases List.mem_cons.mp hx with h | h
      · refine ⟨v, ?_⟩
        have hxk : x = k := by rw [← hq, ← h]
        simp [dictInsert, hq, hxk]
      · exact ⟨w, by simp only [dictInsert, hq, if_true]; exact List.mem_cons_of_mem _ h⟩
    · rcases List.mem_cons.mp hx with h | h
      · exact ⟨w, by simp only [dictInsert, hq, if_false]; exact h ▸ List.mem_cons_self _ _⟩
      · rcases ih x w h with ⟨u, hu⟩
        exact ⟨u, by simp only [dictInsert, hq, if_false]; exact List.mem_cons_of_mem _ hu⟩

theorem dictGet_mem {α : Type} (k : String) :
    ∀ (d : Dict α) (v : α), dictGet k d = some v → (k, v) ∈ d := by
  intro d
  induction d with
  | nil => intro v hv; simp [dictGet] at hv
  | cons q d ih =>
    intro v hv
    by_cases hq : q.1 = k
    · simp [dictGet, hq] at hv
      have : (k, v) = q := Prod.ext hq.symm hv.symm
      exact this ▸ List.mem_cons_self _ _
    · simp [dictGet, hq] at hv
      exact List.mem_cons_of_mem _ (ih v hv)

theorem dictGet_isSome_of_key {α : Type} (k : String) :
    ∀ (d : Dict α), k ∈ dictKeys d → (dictGet k d).isSome := by
  intro d
  induction d with
  | nil => intro h; simp [dictKeys] at h
  | cons q d ih =>
    intro h
    by_cases hq : q.1 = k
    · simp [dictGet, hq]
    · rcases (mem_dictKeys _ _).mp h with ⟨v, hv⟩
      rcases List.mem_cons.mp hv with h2 | h2
      · exact absurd (by rw [← h2] : q.1 = k) hq
      · simp only [dictGet, hq, if_false]
        exact ih ((mem_dictKeys _ _).mpr ⟨v, h2⟩)

theorem dictAppendAt_forall (P : String → Prop) (Q : String → Prop) (k : String)
    (v : String) :
    ∀ (d : Dict (List String)),
      (∀ q ∈ d, P q.1 ∧ ∀ b ∈ q.2, Q b) → P k → Q v →
      ∀ q ∈ dictAppendAt k v d, P q.1 ∧ ∀ b ∈ q.2, Q b := by
  intro d
  induction d with
  | nil =>
    intro _ hk hv q hq
    simp [dictAppendAt] at hq
    subst hq
    exact ⟨hk, by intro b hb; simp at hb; subst hb; exact hv⟩
  | cons p d ih =>
    intro hd hk hv q hq
    by_cases hp : p.1 = k
    · simp only [dictAppendAt, hp, if_true] at hq
      rcases List.mem_cons.mp hq with h | h
      · subst h
        refine ⟨hp ▸ (hd p (List.mem_cons_self _ _)).1, ?_⟩
        intro b hb
        rcases List.mem_append.mp hb with h2 | h2
        · exact (hd p (List.mem_cons_self _ _)).2 b h2
        · simp at h2; subst h2; exact hv
      · exact hd q (List.mem_cons_of_mem _ h)
    · simp only [dictAppendAt, hp, if_false] at hq
      rcases List.mem_cons.mp hq with h | h
      · subst h; exact hd q (List.mem_cons_self _ _)
      · exact ih (fun r hr => hd r (List.mem_cons_of_mem _ hr)) hk hv q h

/-! ## Graph builder invariants -/

theorem firstPass_spec (classes : List OwlClass) :
    FirstPassInv classes (firstPass classes) := by
  refine foldl_invariant (FirstPassInv classes) firstPassStep classes ?_ ([], []) ?_
  · intro acc c hc hacc
    rcases hab : c.about with _ | ab
    · simpa [firstPassStep, hab] using hacc
    · by_cases habe : ab = ""
      · simpa [firstPassStep, hab, habe] using hacc
      · rcases hm : c.mendel with _ | mt
        · simpa [firstPassStep, hab, habe, hm] using hacc
        · rcases mt with _ | t
          · simpa [firstPassStep, hab, habe, hm] using hacc
          · by_cases hte : t = ""
            · simpa [firstPassStep, hab, habe, hm, hte] using hacc
            · simp only [firstPassStep, hab, habe, hm, hte, if_false]
              constructor
              · intro p hp
                rcases mem_dictInsert _ _ _ p hp with hold | hnew
                · exact hacc.1 p hold
                · subst hnew
                  refine ⟨hc, ?_, ?_⟩
                  · simp [aboutTruthy, hab, habe]
                  · simp [mendelKey, hm, hte]
              · intro q hq
                rcases mem_dictInsert _ _ _ q hq with hold | hnew
                · refine ⟨(hacc.2 q hold).1, ?_⟩
                  rcases (hacc.2 q hold).2 with ⟨w, hw⟩
                  exact dictInsert_key_preserved _ _ _ _ _ hw
                · subst hnew
                  refine ⟨⟨c, hc, hab, habe, by simp [mendelKey, hm, hte]⟩, ?_⟩
                  exact ⟨c, dictInsert_mem_self _ _ _⟩
  · exact ⟨by intro p hp; simp at hp, by intro q hq; simp at hq⟩

theorem nodeKey_carried (classes : List OwlClass) (node : OwlClass) (t : String)
    (hnode : node ∈ dictValues (mendel_id_to_node classes))
    (hm : node.mendel = some (some t)) (hte : t ≠ "") :
    CarriedId classes (pyStrip t) := by
  rcases List.mem_map.mp hnode with ⟨p, hp, he⟩
  have h1 := (firstPass_spec classes).1 p hp
  have hkey : p.1 = pyStrip t := by
    have h2 := h1.2.2
    rw [he] at h2
    simp [mendelKey, hm, hte] at h2
    exact h2.symm
  refine ⟨⟨node, he ▸ h1.1, he ▸ h1.2.1, by simp [mendelKey, hm, hte]⟩, ?_⟩
  exact ⟨node, by rw [← hkey, ← he]; exact hp⟩

theorem resolved_parent_carried (classes : List OwlClass) (r parentId : String)
    (hget : dictGet r (about_to_mendel_id classes) = some parentId) :
    CarriedId classes parentId := by
  have hmem := dictGet_mem _ _ _ hget
  have h2 := (firstPass_spec classes).2 (r, parentId) hmem
  rcases h2.1 with ⟨c, hcin, hcab, hcne, hckey⟩
  exact ⟨⟨c, hcin, by simp [aboutTruthy, hcab, hcne], hckey⟩, h2.2⟩

theorem childEdgeStep_inv (classes : List OwlClass) (childKey : String)
    (hchild : CarriedId classes childKey) (adj : Dict (List String))
    (res : Option String) (hadj : AdjInv classes adj) :
    AdjInv classes (childEdgeStep (about_to_mendel_id classes) childKey adj res) := by
  rcases res with _ | r
  · simpa [childEdgeStep] using hadj
  · by_cases hre : r = ""
    · simpa [childEdgeStep, hre] using hadj
    · rcases hget : dictGet r (about_to_mendel_id classes) with _ | parentId
      · simpa [childEdgeStep, hre, hget] using hadj
      · simp only [childEdgeStep, hre, hget, if_false]
        intro q hq
        exact dictAppendAt_forall (CarriedId classes) (CarriedId classes) _ _
          adj hadj hchild (resolved_parent_carried classes r parentId hget) q hq

theorem parentEdgeStep_inv (classes : List OwlClass) (childKey : String)
    (hchild : CarriedId classes childKey) (adj : Dict (List String))
    (res : Option String) (hadj : AdjInv classes adj) :
    AdjInv classes (parentEdgeStep (about_to_mendel_id classes) childKey adj res) := by
  rcases res with _ | r
  · simpa [parentEdgeStep] using hadj
  · by_cases hre : r = ""
    · simpa [parentEdgeStep, hre] using hadj
    · rcases hget : dictGet r (about_to_mendel_id classes) with _ | parentId
      · simpa [parentEdgeStep, hre, hget] using hadj
      · simp only [parentEdgeStep, hre, hget, if_false]
        intro q hq
        exact dictAppendAt_forall (CarriedId classes) (CarriedId classes) _ _
          adj hadj (resolved_parent_carried classes r parentId hget) hchild q hq

theorem child_to_parents_spec (classes : List OwlClass) :
    AdjInv classes (child_to_parents classes) := by
  refine foldl_invariant (AdjInv classes)
    (childNodeStep (about_to_mendel_id classes)) (dictValues (mendel_id_to_node classes))
    ?_ [] (by intro q hq; simp at hq)
  intro adj node hnode hadj
  rcases hm : node.mendel with _ | mt
  · simpa [childNodeStep, hm] using hadj
  · rcases mt with _ | t
    · simpa [childNodeStep, hm] using hadj
    · by_cases hte : t = ""
      · simpa [childNodeStep, hm, hte] using hadj
      · simp only [childNodeStep, hm, hte, if_false]
        have hchild := nodeKey_carried classes node t hnode hm hte
        exact foldl_invariant (AdjInv classes) _ node.subs
          (fun a2 res _ ha2 => childEdgeStep_inv classes (pyStrip t) hchild a2 res ha2)
          adj hadj

theorem parent_to_children_spec (classes : List OwlClass) :
    AdjInv classes (parent_to_children classes) := by
  refine foldl_invariant (AdjInv classes)
    (parentNodeStep (about_to_mendel_id classes)) (dictValues (mendel_id_to_node classes))
    ?_ [] (by intro q hq; simp at hq)
  intro adj node hnode hadj
  rcases hm : node.mendel with _ | mt
  · simpa [parentNodeStep, hm] using hadj
  · rcases mt with _ | t
    · simpa [parentNodeStep, hm] using hadj
    · by_cases hte : t = ""
      · simpa [parentNodeStep, hm, hte] using hadj
      · simp only [parentNodeStep, hm, hte, if_false]
        have hchild := nodeKey_carried classes node t hnode hm hte
        exact foldl_invariant (AdjInv classes) _ node.subs
          (fun a2 res _ ha2 => parentEdgeStep_inv classes (pyStrip t) hchild a2 res ha2)
          adj hadj

theorem mem_adjGet_carried (classes : List OwlClass) (adj : Dict (List String))
    (hadj : AdjInv classes adj) (id b : String) (hb : b ∈ adjGet adj id) :
    CarriedId classes b := by
  rcases hget : dictGet id adj with _ | l
  · simp [adjGet, hget] at hb
  · exact (hadj (id, l) (dictGet_mem _ _ _ hget)).2 b (by simpa [adjGet, hget] using hb)

/-! ## Traversal lemmas -/

theorem get_descendants_spec (adj : Dict (List String)) :
    ∀ (fuel : Nat) (cur : String) (col : List String) (x : String),
      x ∈ get_descendants adj fuel cur col →
      x ∈ col ∨ Relation.TransGen (edgeOf adj) cur x := by
  intro fuel
  induction fuel with
  | zero => intro cur col x hx; left; simpa [get_descendants] using hx
  | succ fuel ih =>
    intro cur col x hx
    simp only [get_descendants] at hx
    refine foldl_invariant
      (fun col2 => ∀ y ∈ col2, y ∈ col ∨ Relation.TransGen (edgeOf adj) cur y)
      _ (adjGet adj cur) ?_ col (fun y hy => Or.inl hy) x hx
    intro acc c hc hacc y hy
    by_cases hmem : c ∈ acc
    · rw [if_pos hmem] at hy
      exact hacc y hy
    · rw [if_neg hmem] at hy
      rcases ih c (c :: acc) y hy with h | h
      · rcases List.mem_cons.mp h with h2 | h2
        · subst h2
          exact Or.inr (Relation.TransGen.single (show edgeOf adj cur y from hc))
        · exact hacc y h2
      · exact Or.inr (Relation.TransGen.head (show edgeOf adj cur c from hc) h)

theorem get_ancestor_paths_spec (adj : Dict (List String)) :
    ∀ (fuel : Nat) (cur : String) (pre visited : List String) (q : List String),
      q ∈ get_ancestor_paths adj fuel cur pre visited →
      ∃ ext, q = pre ++ ext ∧ chainFrom adj cur ext ∧
        adjGet adj (ext.getLastD cur) = [] := by
  intro fuel
  induction fuel with
  | zero => intro cur pre visited q hq; simp [get_ancestor_paths] at hq
  | succ fuel ih =>
    intro cur pre visited q hq
    simp only [get_ancestor_paths] at hq
    by_cases hv : cur ∈ visited
    · rw [if_pos hv] at hq
      simp at hq
    · rw [if_neg hv] at hq
      rcases hps : adjGet adj cur with _ | ⟨p, ps⟩
      · rw [hps] at hq
        simp at hq
        exact ⟨[], by simpa using hq, trivial, by simpa using hps⟩
      · rw [hps] at hq
        have hq2 : q ∈ List.foldl
            (fun acc parentId =>
              acc ++ get_ancestor_paths adj fuel parentId (pre ++ [parentId])
                (cur :: visited))
            [] (p :: ps) := hq
        rw [foldl_append_flatMap] at hq2
        rw [List.nil_append] at hq2
        rcases List.mem_flatMap.mp hq2 with ⟨parentId, hpar, hqin⟩
        rcases ih parentId (pre ++ [parentId]) (cur :: visited) q hqin with
          ⟨ext, hq2, hchain, hlast⟩
        refine ⟨parentId :: ext, ?_, ?_, ?_⟩
        · rw [hq2, List.append_assoc, List.singleton_append]
        · exact ⟨by rw [show adjGet adj cur = p :: ps from hps]; exact hpar, hchain⟩
        · rw [List.getLastD_cons]
          exact hlast

theorem chainFrom_transGen (adj : Dict (List String)) :
    ∀ (ext : List String) (c x : String), chainFrom adj c ext → x ∈ ext →
      Relation.TransGen (edgeOf adj) c x := by
  intro ext
  induction ext with
  | nil => intro c x _ hx; simp at hx
  | cons p rest ih =>
    intro c x hch hx
    rcases List.mem_cons.mp hx with h | h
    · subst h
      exact Relation.TransGen.single hch.1
    · exact Relation.TransGen.head (show edgeOf adj c p from hch.1) (ih p x hch.2 h)

theorem chain_members_carried (classes : List OwlClass) (adj : Dict (List String))
    (hadj : AdjInv classes adj) :
    ∀ (ext : List String) (c : String), chainFrom adj c ext →
      ∀ x ∈ ext, CarriedId classes x := by
  intro ext
  induction ext with
  | nil => intro c _ x hx; simp at hx
  | cons p rest ih =>
    intro c hch x hx
    rcases List.mem_cons.mp hx with h | h
    · subst h
      exact mem_adjGet_carried classes adj hadj c x hch.1
    · exact ih p hch.2 x h

/-- A graph whose every edge target has no outgoing edges is acyclic:
a cycle would need a second step out of a target. -/
theorem acyclic_of_flat (adj : Dict (List String))
    (h : ∀ q ∈ adj, ∀ b ∈ q.2, adjGet adj b = []) : Acyclic adj := by
  intro a hcyc
  rcases Relation.TransGen.head'_iff.mp hcyc with ⟨b, hab, hba⟩
  have hBflat : adjGet adj b = [] := by
    rcases hget : dictGet a adj with _ | l
    · exfalso
      simp [edgeOf, adjGet, hget] at hab
    · exact h (a, l) (dictGet_mem _ _ _ hget) b
        (by simpa [edgeOf, adjGet, hget] using hab)
  rcases hba.cases_head with heq | ⟨c, hbc, _⟩
  · subst heq
    simp [edgeOf, hBflat] at hab
  · simp [edgeOf, hBflat] at hbc

/-- Every identifier occurring anywhere in either adjacency map is carried
by a well-identified class. -/
theorem idInAdj_carried (classes : List OwlClass) (id : String) :
    idInAdj (child_to_parents classes) id ∨ idInAdj (parent_to_children classes) id →
    CarriedId classes id := by
  intro h
  rcases h with h | h <;> rcases h with hk | ⟨q, hq, hb⟩
  · rcases (mem_dictKeys _ _).mp hk with ⟨l, hl⟩
    exact (child_to_parents_spec classes (id, l) hl).1
  · exact (child_to_parents_spec classes q hq).2 _ hb
  · rcases (mem_dictKeys _ _).mp hk with ⟨l, hl⟩
    exact (parent_to_children_spec classes (id, l) hl).1
  · exact (parent_to_children_spec classes q hq).2 _ hb

/-! ## Leveling and deduplication lemmas -/

theorem enumerateFrom_map_snd {α : Type} :
    ∀ (l : List α) (i : Nat), (enumerateFrom i l).map Prod.snd = l := by
  intro l
  induction l with
  | nil => intro i; simp [enumerateFrom]
  | cons a l ih => intro i; simp [enumerateFrom, ih]

theorem enumerateFrom_map_fst {α : Type} :
    ∀ (l : List α) (i : Nat),
      (enumerateFrom i l).map Prod.fst = List.range' i l.length := by
  intro l
  induction l with
  | nil => intro i; simp [enumerateFrom]
  | cons a l ih => intro i; simp [enumerateFrom, ih, List.range'_succ]

theorem enumerateFrom_mem_snd {α : Type} :
    ∀ (l : List α) (i : Nat) (x : Nat × α), x ∈ enumerateFrom i l → x.2 ∈ l := by
  intro l
  induction l with
  | nil => intro i x hx; simp [enumerateFrom] at hx
  | cons a l ih =>
    intro i x hx
    rcases List.mem_cons.mp hx with h | h
    · subst h; simp
    · exact List.mem_cons_of_mem _ (ih (i + 1) x h)

theorem levelEntries_full (m : Dict OwlClass) (path : List String)
    (h : ∀ id ∈ path, (dictGet id m).isSome) :
    (levelEntries m path).map (fun e => e.1) = path.reverse ∧
    (levelEntries m path).map (fun e => e.2.2.2) = List.range path.length := by
  have key :
      ∀ (l : List (Nat × String)), (∀ x ∈ l, (dictGet x.2 m).isSome) →
        ((l.filterMap
          (fun li =>
            match dictGet li.2 m with
            | some node =>
              some (li.2, label_text node, label_text node ++ "::" ++ li.2, li.1)
            | none => none)).map (fun e => e.1) = l.map Prod.snd ∧
        (l.filterMap
          (fun li =>
            match dictGet li.2 m with
            | some node =>
              some (li.2, label_text node, label_text node ++ "::" ++ li.2, li.1)
            | none => none)).map (fun e => e.2.2.2) = l.map Prod.fst) := by
    intro l
    induction l with
    | nil => intro _; simp
    | cons x xs ih =>
      intro hl
      rcases Option.isSome_iff_exists.mp (hl x (List.mem_cons_self _ _)) with ⟨node, hnode⟩
      have ihr := ih (fun y hy => hl y (List.mem_cons_of_mem _ hy))
      simp only [List.filterMap_cons, hnode, List.map_cons]
      exact ⟨by rw [ihr.1], by rw [ihr.2]⟩
  have hmem : ∀ x ∈ enumerate path.reverse, (dictGet (Prod.snd x) m).isSome := by
    intro x hx
    exact h x.2 (List.mem_reverse.mp (enumerateFrom_mem_snd path.reverse 0 x hx))
  have hk := key (enumerate path.reverse) hmem
  constructor
  · rw [show levelEntries m path = (enumerate path.reverse).filterMap _ from rfl, hk.1,
      enumerate, enumerateFrom_map_snd]
  · rw [show levelEntries m path = (enumerate path.reverse).filterMap _ from rfl, hk.2,
      enumerate, enumerateFrom_map_fst]
    rw [List.length_reverse, List.range_eq_range']

theorem dedup_by_id_nodup :
    ∀ (l : List PEntry) (seen : List String),
      ((dedup_by_id l seen).map (fun e => e.1)).Nodup ∧
      ∀ e ∈ dedup_by_id l seen, e.1 ∉ seen := by
  intro l
  induction l with
  | nil => intro seen; simp [dedup_by_id]
  | cons x xs ih =>
    intro seen
    by_cases hx : x.1 ∈ seen
    · simpa [dedup_by_id, hx] using ih seen
    · simp only [dedup_by_id, hx, if_false]
      have ihr := ih (x.1 :: seen)
      refine ⟨?_, ?_⟩
      · simp only [List.map_cons, List.nodup_cons]
        refine ⟨?_, ihr.1⟩
        intro hmem
        rcases List.mem_map.mp hmem with ⟨e, he, heq⟩
        exact (ihr.2 e he) (heq ▸ List.mem_cons_self _ _)
      · intro e he
        rcases List.mem_cons.mp he with h | h
        · subst h; exact hx
        · exact fun hs => (ihr.2 e h) (List.mem_cons_of_mem _ hs)

theorem dedup_by_id_sublist :
    ∀ (l : List PEntry) (seen : List String), (dedup_by_id l seen).Sublist l := by
  intro l
  induction l with
  | nil => intro seen; simp [dedup_by_id]
  | cons x xs ih =>
    intro seen
    by_cases hx : x.1 ∈ seen
    · simp only [dedup_by_id, hx, if_true]
      exact (ih seen).cons x
    · simp only [dedup_by_id, hx, if_false]
      exact (ih (x.1 :: seen)).cons₂ x

theorem dedup_by_id_first :
    ∀ (l : List PEntry) (seen : List String) (e : PEntry), e ∈ dedup_by_id l seen →
      l.find? (fun x => x.1 == e.1) = some e := by
  intro l
  induction l with
  | nil => intro seen e he; simp [dedup_by_id] at he
  | cons x xs ih =>
    intro seen e he
    by_cases hx : x.1 ∈ seen
    · simp only [dedup_by_id, hx, if_true] at he
      have hne : x.1 ≠ e.1 := by
        intro heq
        exact (dedup_by_id_nodup xs seen).2 e he (heq ▸ hx)
      rw [List.find?_cons_of_neg _ (by simpa using hne)]
      exact ih seen e he
    · simp only [dedup_by_id, hx, if_false] at he
      rcases List.mem_cons.mp he with h | h
      · subst h
        rw [List.find?_cons_of_pos _ (by simp)]
      · have hne : x.1 ≠ e.1 := by
          intro heq
          exact (dedup_by_id_nodup xs (x.1 :: seen)).2 e h (heq ▸ List.mem_cons_self _ _)
        rw [List.find?_cons_of_neg _ (by simpa using hne)]
        exact ih (x.1 :: seen) e h

theorem dedup_by_id_covers :
    ∀ (l : List PEntry) (seen : List String) (x : PEntry), x ∈ l → x.1 ∉ seen →
      ∃ e ∈ dedup_by_id l seen, e.1 = x.1 := by
  intro l
  induction l with
  | nil => intro seen x hx _; simp at hx
  | cons y ys ih =>
    intro seen x hx hns
    by_cases hy : y.1 ∈ seen
    · simp only [dedup_by_id, hy, if_true]
      rcases List.mem_cons.mp hx with h | h
      · exact absurd (h ▸ hns) (by simp [h, hy])
      · exact ih seen x h hns
    · simp only [dedup_by_id, hy, if_false]
      rcases List.mem_cons.mp hx with h | h
      · exact ⟨y, List.mem_cons_self _ _, by rw [h]⟩
      · by_cases hxy : x.1 = y.1
        · exact ⟨y, List.mem_cons_self _ _, hxy.symm⟩
        · rcases ih (y.1 :: seen) x h (by simp [hns, hxy]) with ⟨e, he, heq⟩
          exact ⟨e, List.mem_cons_of_mem _ he, heq⟩

theorem extract_children_ids_mem (classes : List OwlClass) (root : String)
    (e : String × String × String) (he : e ∈ extract_children classes root) :
    e.1 ∈ descendant_closure classes root := by
  have hfm := foldl_append_flatMap
    (fun id =>
      match dictGet id (mendel_id_to_node classes) with
      | some node => [(id, label_text node, label_text node ++ "::" ++ id)]
      | none => ([] : List (String × String × String)))
    (descendant_closure classes root) []
  have he2 : e ∈ (descendant_closure classes root).flatMap
      (fun id =>
        match dictGet id (mendel_id_to_node classes) with
        | some node => [(id, label_text node, label_text node ++ "::" ++ id)]
        | none => ([] : List (String × String × String))) := by
    rw [← List.nil_append ((descendant_closure classes root).flatMap _), ← hfm]
    exact he
  rcases List.mem_flatMap.mp he2 with ⟨id, hid, hein⟩
  rcases hget : dictGet id (mendel_id_to_node classes) with _ | node
  · rw [hget] at hein
    simp at hein
  · rw [hget] at hein
    simp at hein
    rw [hein]
    exact hid

/-! ## Claim theorems -/

/-- C1 counterexample: the claim as stated is false — in
`extract_parents exTwoChain` for start `A` (A subClassOf B, B a root) the
single recorded path is `[B]`, which does not contain the start node `A`,
and `A` appears nowhere in the final output either. -/
theorem ancestor_paths_cx :
    ["B"] ∈ all_ancestor_paths exTwoChain "A" ∧
    "A" ∉ (["B"] : List String) ∧
    extract_parents exTwoChain "A" = [("B", "No label", "No label::B", 0)] ∧
    ∀ e ∈ extract_parents exTwoChain "A", e.1 ≠ "A" := by
  refine ⟨by decide, by decide, by decide, by decide⟩

/-- C1 (amended): for every acyclic graph and start identifier present in
the graph, each recorded path consists of the proper ancestors only: it is
a parent chain starting from (but excluding) the start node, its last
element has zero parents, the start node never appears in it, and the
leveled flattening lists the reversed path with the zero-parent root at
level 0 and each hop adding 1 (so the deepest level holds the first parent
of the start node, not the start node itself). -/
theorem ancestor_paths_shape (classes : List OwlClass) (start : String)
    (hacyc : Acyclic (child_to_parents classes))
    (hstart : start ∈ dictKeys (child_to_parents classes)) :
    ∀ p ∈ all_ancestor_paths classes start,
      chainFrom (child_to_parents classes) start p ∧
      adjGet (child_to_parents classes) (p.getLastD start) = [] ∧
      start ∉ p ∧
      (levelEntries (mendel_id_to_node classes) p).map (fun e => e.1) = p.reverse ∧
      (levelEntries (mendel_id_to_node classes) p).map (fun e => e.2.2.2) =
        List.range p.length := by
  intro p hp
  rcases get_ancestor_paths_spec (child_to_parents classes) (ancestorsFuel classes)
      start [] [] p hp with ⟨ext, hpe, hchain, hlast⟩
  rw [List.nil_append] at hpe
  subst hpe
  have hfull := levelEntries_full (mendel_id_to_node classes) p ?_
  · refine ⟨hchain, hlast, ?_, hfull.1, hfull.2⟩
    intro hmem
    exact hacyc start (chainFrom_transGen _ p start start hchain hmem)
  · intro id hid
    have hc := chain_members_carried classes _ (child_to_parents_spec classes)
      p start hchain id hid
    rcases hc.2 with ⟨w, hw⟩
    exact dictGet_isSome_of_key _ _ ((mem_dictKeys _ _).mpr ⟨w, hw⟩)

/-- Witness for the amended C1 theorem at a concrete acyclic two-node graph. -/
theorem ancestor_paths_shape_witness :
    ("A" ∈ dictKeys (child_to_parents exTwoChain)) ∧
    ∀ p ∈ all_ancestor_paths exTwoChain "A",
      chainFrom (child_to_parents exTwoChain) "A" p ∧
      adjGet (child_to_parents exTwoChain) (p.getLastD "A") = [] ∧
      "A" ∉ p ∧
      (levelEntries (mendel_id_to_node exTwoChain) p).map (fun e => e.1) = p.reverse ∧
      (levelEntries (mendel_id_to_node exTwoChain) p).map (fun e => e.2.2.2) =
        List.range p.length := by
  have hacyc : Acyclic (child_to_parents exTwoChain) := acyclic_of_flat _ (by decide)
  exact ⟨by decide, ancestor_paths_shape exTwoChain "A" hacyc (by decide)⟩

/-- C2: for an acyclic graph the descendant closure never contains the
requested root itself (nor does any row of `extract_children` carry it),
and recomputing the closure on the unmodified graph returns the same
result — the embedding is a pure function of the document. -/
theorem descendant_closure_spec (classes : List OwlClass) (root : String)
    (hacyc : Acyclic (parent_to_children classes)) :
    root ∉ descendant_closure classes root ∧
    (∀ e ∈ extract_children classes root, e.1 ≠ root) ∧
    descendant_closure classes root = descendant_closure classes root := by
  have hroot : root ∉ descendant_closure classes root := by
    intro hmem
    rcases get_descendants_spec (parent_to_children classes) (descendantsFuel classes)
        root [] root hmem with h | h
    · simp at h
    · exact hacyc root h
  refine ⟨hroot, ?_, rfl⟩
  intro e he heq
  exact hroot (heq ▸ extract_children_ids_mem classes root e he)

/-- Witness for C2 at a concrete acyclic graph (root R with child A). -/
theorem descendant_closure_spec_witness :
    "R" ∉ descendant_closure exRootChild "R" ∧
    descendant_closure exRootChild "R" = ["A"] := by
  have hacyc : Acyclic (parent_to_children exRootChild) := acyclic_of_flat _ (by decide)
  exact ⟨(descendant_closure_spec exRootChild "R" hacyc).1, by decide⟩

/-- C3: the flattened leveled result is deduplicated by identifier keeping
the first occurrence in visitation order (first-seen level wins) while
preserving order, and in the diamond document (X has parents A and B, A a
child of root R) the identifier X is reached through both lineages during
enumeration — it occurs twice in the flattened list — yet appears exactly
once in the final output. -/
theorem extract_parents_dedup_spec :
    (∀ (classes : List OwlClass) (start : String),
      ((extract_parents classes start).map (fun e => e.1)).Nodup ∧
      (extract_parents classes start).Sublist (flat_leveled classes start) ∧
      (∀ e ∈ extract_parents classes start,
        (flat_leveled classes start).find? (fun x => x.1 == e.1) = some e) ∧
      (∀ x ∈ flat_leveled classes start,
        ∃ e ∈ extract_parents classes start, e.1 = x.1)) ∧
    all_ancestor_paths exDiamond "W" = [["X", "A", "R"], ["X", "B", "R"]] ∧
    (flat_leveled exDiamond "W").countP (fun e => e.1 == "X") = 2 ∧
    (extract_parents exDiamond "W").countP (fun e => e.1 == "X") = 1 := by
  refine ⟨?_, by decide, by decide, by decide⟩
  intro classes start
  exact ⟨(dedup_by_id_nodup (flat_leveled classes start) []).1,
    dedup_by_id_sublist (flat_leveled classes start) [],
    dedup_by_id_first (flat_leveled classes start) [],
    fun x hx => dedup_by_id_covers (flat_leveled classes start) [] x hx (by simp)⟩

/-- Witness for C3: the entry kept for the twice-reached identifier X is
exactly the first occurrence in the flattened list. -/
theorem extract_parents_dedup_spec_witness :
    (flat_leveled exDiamond "W").find? (fun x => x.1 == "X") =
      some ("X", "No label", "No label::X", 2) := by
  exact (extract_parents_dedup_spec.1 exDiamond "W").2.2.1
    ("X", "No label", "No label::X", 2) (by decide)

/-- C4: a requested root/start identifier absent from the adjacency yields
empty results from both extractions, which the caller surfaces as warnings;
the embedding functions are total, so no error is raised. -/
theorem absent_id_empty_results (classes : List OwlClass) (id : String)
    (h1 : dictGet id (parent_to_children classes) = none)
    (h2 : dictGet id (child_to_parents classes) = none) :
    extract_children classes id = [] ∧ extract_parents classes id = [] ∧
    childrenOutcome classes id =
      .warning ("No data extracted for the given Root Mendel ID: " ++ id) ∧
    parentsOutcome classes id =
      .warning ("No parents found for the given Mendel ID: " ++ id) := by
  have hclosure : descendant_closure classes id = [] := by
    show get_descendants _ (classes.length + 1) id [] = []
    simp [get_descendants, adjGet, h1]
  have hchildren : extract_children classes id = [] := by
    simp [extract_children, hclosure]
  have hpaths : all_ancestor_paths classes id = [[]] := by
    show get_ancestor_paths _ (classes.length + 2) id [] [] = [[]]
    simp [get_ancestor_paths, adjGet, h2]
  have hflat : flat_leveled classes id = [] := by
    simp [flat_leveled, hpaths, levelEntries, enumerate, enumerateFrom]
  have hparents : extract_parents classes id = [] := by
    simp [extract_parents, hflat, dedup_by_id]
  refine ⟨hchildren, hparents, ?_, ?_⟩
  · simp [childrenOutcome, hchildren]
  · simp [parentsOutcome, hparents]

/-- Witness for C4 at a concrete graph and an identifier absent from it. -/
theorem absent_id_empty_results_witness :
    extract_children exRootChild "ZZZ" = [] ∧ extract_parents exRootChild "ZZZ" = [] := by
  have h := absent_id_empty_results exRootChild "ZZZ" (by decide) (by decide)
  exact ⟨h.1, h.2.1⟩

/-- C9: every identifier appearing anywhere in either adjacency map (as key
or edge-list member) belongs to a class element with both a truthy
`rdf:about` and a non-empty `Mendel_ID`; a subClassOf edge whose target
class exists but lacks a Mendel_ID produces no adjacency at all, exactly
like a dangling external reference. -/
theorem adjacency_ids_well_identified (classes : List OwlClass) (id : String)
    (h : idInAdj (child_to_parents classes) id ∨ idInAdj (parent_to_children classes) id) :
    GoodId classes id ∧
    child_to_parents exTargetNoMendel = [] ∧ parent_to_children exTargetNoMendel = [] ∧
    child_to_parents exDangling = [] ∧ parent_to_children exDangling = [] := by
  exact ⟨(idInAdj_carried classes id h).1, by decide, by decide, by decide, by decide⟩

/-- Witness for C9 at a concrete graph: the edge target B occurs in the
adjacency, and it indeed belongs to a well-identified class. -/
theorem adjacency_ids_well_identified_witness :
    idInAdj (child_to_parents exTwoChain) "B" ∧ GoodId exTwoChain "B" := by
  exact ⟨by decide, (adjacency_ids_well_identified exTwoChain "B" (Or.inl (by decide))).1⟩

/-- C10: a Mendel_ID element that is present but empty (text `None`) makes
identifier extraction raise (modelled as an `Except.error`) both in the
search tools and in the code-update mutation, instead of treating the
identifier as absent — while a class with no Mendel_ID element at all is
handled as absent. -/
theorem empty_mendel_id_raises :
    get_mendel_id exEmptyMendel =
      .error "AttributeError: NoneType object has no attribute strip" ∧
    update_codes_for_class [("1", ["C:1"])] exEmptyMendel =
      .error "AttributeError: NoneType object has no attribute strip" ∧
    get_mendel_id exNoMendel = .ok none :=
  ⟨rfl, rfl, rfl⟩

/-- C6: a stored code matches an input term in the relaxed code-value
search exactly when the two clean up to the same string — cleaning strips
everything up to and including the first colon of the stored code (the
whole code when no colon is present), removes every non-alphanumeric
character, and lowercases — and in particular stored `ICD10:A-15.2`
matches input `a152`. -/
theorem relaxed_code_match_spec :
    (∀ (codes_list inputTerms : List String) (entry : String),
      entry ∈ relaxed_matched_codes codes_list inputTerms ↔
        entry ∈ codes_list ∧
        ∃ inp ∈ inputTerms, clean_code (code_value entry) = clean_code inp) ∧
    relaxed_matched_codes ["ICD10:A-15.2"] ["a152"] = ["ICD10:A-15.2"] ∧
    code_value "ICD10:A-15.2" = "A-15.2" ∧
    clean_code "A-15.2" = "a152" ∧
    code_value "A15" = "A15" := by
  refine ⟨?_, by decide, by decide, by decide, by decide⟩
  intro codes inputs entry
  rw [relaxed_matched_codes, List.mem_filter]
  constructor
  · rintro ⟨h1, h2⟩
    simp only [decide_eq_true_eq, List.mem_map] at h2
    rcases h2 with ⟨inp, hinp, heq⟩
    exact ⟨h1, inp, hinp, heq.symm⟩
  · rintro ⟨h1, inp, hinp, heq⟩
    refine ⟨h1, ?_⟩
    simp only [decide_eq_true_eq, List.mem_map]
    exact ⟨inp, hinp, heq.symm⟩

theorem processRows_counts : ∀ (rows : List EditRow) (i : Nat),
    (processRows i rows).1.length = rows.countP (fun r => (effLabel r).isSome) ∧
    (processRows i rows).2.length = rows.length ∧
    rows.countP (fun r => (effLabel r).isSome) +
      rows.countP (fun r => (effLabel r).isNone) = rows.length := by
  intro rows
  induction rows with
  | nil => intro i; simp [processRows]
  | cons r rest ih =>
    intro i
    have ihr := ih (i + 1)
    rcases hl : effLabel r with _ | lbl
    · refine ⟨?_, ?_, ?_⟩
      · simp [processRows, hl, ihr.1, List.countP_cons]
      · simp [processRows, hl, ihr.2.1]
      · have h3 := ihr.2.2
        simp [List.countP_cons, hl]
        omega
    · refine ⟨?_, ?_, ?_⟩
      · simp [processRows, hl, ihr.1, List.countP_cons]
      · simp [processRows, hl, ihr.2.1]
      · have h3 := ihr.2.2
        simp [List.countP_cons, hl]
        omega

/-- C7: in the insert-new-class batch operation a row whose Label cell is
NaN or strips to empty is skipped (producing a skip log line and no class
element), every row produces exactly one log line, and the number of class
elements produced equals the number of input rows minus the number of
skipped rows. -/
theorem add_new_classes_counts :
    (∀ (rows : List EditRow),
      (process_add_new_classes rows).1.length
          = rows.length - rows.countP (fun r => (effLabel r).isNone) ∧
      (process_add_new_classes rows).1.length
          + rows.countP (fun r => (effLabel r).isNone) = rows.length ∧
      (process_add_new_classes rows).2.length = rows.length) ∧
    ∀ (i : Nat) (r : EditRow) (rest : List EditRow), effLabel r = none →
      (processRows i (r :: rest)).1 = (processRows (i + 1) rest).1 ∧
      (processRows i (r :: rest)).2 =
        ("Skipped row " ++ toString (i + 1) ++ ": Label is missing.") ::
          (processRows (i + 1) rest).2 := by
  constructor
  · intro rows
    have h := processRows_counts rows 0
    have h1 : (process_add_new_classes rows).1.length
        = rows.countP (fun r => (effLabel r).isSome) := h.1
    have h2 : (process_add_new_classes rows).2.length = rows.length := h.2.1
    have h3 := h.2.2
    exact ⟨by omega, by omega, h2⟩
  · intro i r rest hl
    constructor <;> simp [processRows, hl]

/-- Witness for the skip branch of C7 at a concrete row batch: one row
with a whitespace-only label is skipped, one row with a label produces
one class. -/
theorem add_new_classes_counts_witness :
    (processRows 0 [exRowNoLabel, exRowLabeled]).1 =
      (processRows 1 [exRowLabeled]).1 ∧
    (process_add_new_classes [exRowNoLabel, exRowLabeled]).1.length = 1 := by
  constructor
  · exact (add_new_classes_counts.2 0 exRowNoLabel [exRowLabeled] (by decide)).1
  · have h := (add_new_classes_counts.1 [exRowNoLabel, exRowLabeled]).2.1
    have hc : List.countP (fun r => (effLabel r).isNone) [exRowNoLabel, exRowLabeled]
        = 1 := by decide
    have hlen : ([exRowNoLabel, exRowLabeled] : List EditRow).length = 2 := rfl
    omega

/-- C8: an archive listing with no name ending in a recognized ontology
extension makes the load step fail with the NotFound-class error, never an
ok result. -/
theorem no_owl_file_not_found (names : List String)
    (h : ∀ n ∈ names, pyEndsWith n ".owl" = false ∧ pyEndsWith n ".xml" = false) :
    locateOwlFile names = .error "No OWL file found in the ZIP archive." ∧
    ∀ f, locateOwlFile names ≠ .ok f := by
  have hfilter : names.filter (fun n => pyEndsWith n ".owl" || pyEndsWith n ".xml") = [] := by
    rw [List.filter_eq_nil_iff]
    intro n hn
    simp [(h n hn).1, (h n hn).2]
  constructor
  · simp [locateOwlFile, hfilter]
  · intro f hf
    simp [locateOwlFile, hfilter] at hf

/-- Witness for C8 at a concrete archive listing without ontology files. -/
theorem no_owl_file_not_found_witness :
    locateOwlFile ["readme.txt", "data.csv"] =
      .error "No OWL file found in the ZIP archive." := by
  exact (no_owl_file_not_found ["readme.txt", "data.csv"] (by decide)).1

/-! ## String order lemmas (for the merge-codes claim) -/

theorem lexLe_total : ∀ (a b : List Char), lexLe a b = true ∨ lexLe b a = true := by
  intro a
  induction a with
  | nil => intro b; left; simp [lexLe]
  | cons x xs ih =>
    intro b
    rcases b with _ | ⟨y, ys⟩
    · right; simp [lexLe]
    · rcases lt_trichotomy x y with h | h | h
      · left; simp [lexLe, h]
      · subst h
        rcases ih ys with h2 | h2
        · left; simpa [lexLe, lt_irrefl] using h2
        · right; simpa [lexLe, lt_irrefl] using h2
      · right; simp [lexLe, h]

theorem lexLe_trans :
    ∀ (a b c : List Char), lexLe a b = true → lexLe b c = true → lexLe a c = true := by
  intro a
  induction a with
  | nil => intro b c _ _; simp [lexLe]
  | cons x xs ih =>
    intro b c hab hbc
    rcases b with _ | ⟨y, ys⟩
    · simp [lexLe] at hab
    · rcases c with _ | ⟨z, zs⟩
      · simp [lexLe] at hbc
      · by_cases hxy : x < y
        · by_cases hyz : y < z
          · simp [lexLe, lt_trans hxy hyz]
          · by_cases hzy : z < y
            · simp [lexLe, hyz, hzy] at hbc
            · have hyeq : y = z := le_antisymm (not_lt.mp hzy) (not_lt.mp hyz)
              subst hyeq
              simp [lexLe, hxy]
        · by_cases hyx : y < x
          · simp [lexLe, hxy, hyx] at hab
          · have hxeq : x = y := le_antisymm (not_lt.mp hyx) (not_lt.mp hxy)
            subst hxeq
            simp only [lexLe, lt_irrefl, if_false] at hab
            by_cases hyz : x < z
            · simp [lexLe, hyz]
            · by_cases hzy : z < x
              · simp [lexLe, hyz, hzy] at hbc
              · have hzeq : x = z := le_antisymm (not_lt.mp hzy) (not_lt.mp hyz)
                subst hzeq
                simp only [lexLe, lt_irrefl, if_false] at hbc ⊢
                exact ih ys zs hab hbc

theorem lexLe_antisymm :
    ∀ (a b : List Char), lexLe a b = true → lexLe b a = true → a = b := by
  intro a
  induction a with
  | nil =>
    intro b _ hba
    rcases b with _ | ⟨y, ys⟩
    · rfl
    · simp [lexLe] at hba
  | cons x xs ih =>
    intro b hab hba
    rcases b with _ | ⟨y, ys⟩
    · simp [lexLe] at hab
    · by_cases hxy : x < y
      · simp [lexLe, hxy, asymm hxy] at hba
      · by_cases hyx : y < x
        · simp [lexLe, hxy, hyx] at hab
        · have hxeq : x = y := le_antisymm (not_lt.mp hyx) (not_lt.mp hxy)
          subst hxeq
          simp only [lexLe, lt_irrefl, if_false] at hab hba
          rw [ih ys hab hba]

theorem pyLe_total (a b : String) : pyLe a b ∨ pyLe b a := lexLe_total a.data b.data

theorem pyLe_trans (a b c : String) : pyLe a b → pyLe b c → pyLe a c :=
  lexLe_trans a.data b.data c.data

theorem pyLe_antisymm (a b : String) : pyLe a b → pyLe b a → a = b := by
  intro hab hba
  rcases a with ⟨la⟩
  rcases b with ⟨lb⟩
  rw [lexLe_antisymm la lb hab hba]

theorem py_sorted_perm (l : List String) : (py_sorted l).Perm l :=
  List.perm_insertionSort _ l

theorem py_sorted_sorted (l : List String) :
    List.Sorted (fun a b => pyLe a b) (py_sorted l) :=
  @List.sorted_insertionSort String (fun a b => pyLe a b) _
    ⟨fun a b => pyLe_total a b⟩ ⟨fun a b c => pyLe_trans a b c⟩ l

/-- Python `sorted` is canonical on deduplicated lists: two nodup lists
with the same members sort to the same list. -/
theorem py_sorted_canonical (l₁ l₂ : List String) (h1 : l₁.Nodup) (h2 : l₂.Nodup)
    (h : ∀ x, x ∈ l₁ ↔ x ∈ l₂) : py_sorted l₁ = py_sorted l₂ := by
  have hperm : l₁.Perm l₂ := (List.perm_ext_iff_of_nodup h1 h2).mpr h
  have hp : (py_sorted l₁).Perm (py_sorted l₂) :=
    ((py_sorted_perm l₁).trans hperm).trans (py_sorted_perm l₂).symm
  exact @List.eq_of_perm_of_sorted String (fun a b => pyLe a b)
    ⟨fun a b => pyLe_antisymm a b⟩ _ _ hp (py_sorted_sorted l₁) (py_sorted_sorted l₂)

theorem pyDedupAux_nodup :
    ∀ (l seen : List String),
      (pyDedupAux l seen).Nodup ∧ ∀ x ∈ pyDedupAux l seen, x ∉ seen := by
  intro l
  induction l with
  | nil => intro seen; simp [pyDedupAux]
  | cons y ys ih =>
    intro seen
    by_cases hy : y ∈ seen
    · simpa [pyDedupAux, hy] using ih seen
    · simp only [pyDedupAux, hy, if_false]
      have ihr := ih (y :: seen)
      refine ⟨List.nodup_cons.mpr ⟨?_, ihr.1⟩, ?_⟩
      · intro hmem
        exact ihr.2 y hmem (List.mem_cons_self _ _)
      · intro x hx
        rcases List.mem_cons.mp hx with h | h
        · subst h; exact hy
        · exact fun hs => ihr.2 x h (List.mem_cons_of_mem _ hs)

theorem pyDedupAux_mem :
    ∀ (l seen : List String) (x : String),
      x ∈ pyDedupAux l seen ↔ x ∈ l ∧ x ∉ seen := by
  intro l
  induction l with
  | nil => intro seen x; simp [pyDedupAux]
  | cons y ys ih =>
    intro seen x
    by_cases hy : y ∈ seen
    · simp only [pyDedupAux, hy, if_true, ih]
      constructor
      · rintro ⟨h1, h2⟩
        exact ⟨List.mem_cons_of_mem _ h1, h2⟩
      · rintro ⟨h1, h2⟩
        rcases List.mem_cons.mp h1 with h | h
        · exact absurd (h ▸ hy) h2
        · exact ⟨h, h2⟩
    · simp only [pyDedupAux, hy, if_false]
      constructor
      · intro hx
        rcases List.mem_cons.mp hx with h | h
        · subst h; exact ⟨List.mem_cons_self _ _, hy⟩
        · rcases (ih (y :: seen) x).mp h with ⟨h1, h2⟩
          exact ⟨List.mem_cons_of_mem _ h1, fun hs => h2 (List.mem_cons_of_mem _ hs)⟩
      · rintro ⟨h1, h2⟩
        rcases List.mem_cons.mp h1 with h | h
        · subst h; exact List.mem_cons_self _ _
        · by_cases hxy : x = y
          · subst hxy; exact List.mem_cons_self _ _
          · exact List.mem_cons_of_mem _
              ((ih (y :: seen) x).mpr ⟨h, by simp [h2, hxy]⟩)

theorem pyDedup_nodup (l : List String) : (pyDedup l).Nodup := (pyDedupAux_nodup l []).1

theorem pyDedup_mem (l : List String) (x : String) : x ∈ pyDedup l ↔ x ∈ l := by
  rw [pyDedup, pyDedupAux_mem]
  simp

/-! ## Split/join and strip lemmas (for the merge-codes claim) -/

theorem splitLinesCh_no_newline :
    ∀ (l acc : List Char), (∀ c ∈ acc, c ≠ '\n') →
      ∀ p ∈ splitLinesCh l acc, '\n' ∉ p := by
  intro l
  induction l with
  | nil =>
    intro acc hacc p hp
    simp [splitLinesCh] at hp
    subst hp
    intro hmem
    exact hacc '\n' (List.mem_reverse.mp hmem) rfl
  | cons c cs ih =>
    intro acc hacc p hp
    by_cases hc : c = '\n'
    · rw [splitLinesCh, if_pos hc] at hp
      rcases List.mem_cons.mp hp with h | h
      · subst h
        intro hmem
        exact hacc '\n' (List.mem_reverse.mp hmem) rfl
      · exact ih [] (by intro d hd; simp at hd) p h
    · rw [splitLinesCh, if_neg hc] at hp
      refine ih (c :: acc) ?_ p hp
      intro d hd
      rcases List.mem_cons.mp hd with h | h
      · subst h; exact hc
      · exact hacc d h

theorem splitLinesCh_append_newline :
    ∀ (l : List Char), '\n' ∉ l → ∀ (rest acc : List Char),
      splitLinesCh (l ++ '\n' :: rest) acc =
        (acc.reverse ++ l) :: splitLinesCh rest [] := by
  intro l
  induction l with
  | nil =>
    intro _ rest acc
    simp [splitLinesCh]
  | cons c cs ih =>
    intro hnl rest acc
    have hc : c ≠ '\n' := fun h => hnl (h ▸ List.mem_cons_self _ _)
    have hcs : '\n' ∉ cs := fun h => hnl (List.mem_cons_of_mem _ h)
    rw [List.cons_append, splitLinesCh, if_neg hc, ih hcs rest (c :: acc)]
    simp

theorem splitLinesCh_no_newline_whole :
    ∀ (l : List Char), '\n' ∉ l → ∀ (acc : List Char),
      splitLinesCh l acc = [acc.reverse ++ l] := by
  intro l
  induction l with
  | nil => intro _ acc; simp [splitLinesCh]
  | cons c cs ih =>
    intro hnl acc
    have hc : c ≠ '\n' := fun h => hnl (h ▸ List.mem_cons_self _ _)
    have hcs : '\n' ∉ cs := fun h => hnl (List.mem_cons_of_mem _ h)
    rw [splitLinesCh, if_neg hc, ih hcs (c :: acc)]
    simp

theorem splitLinesCh_joinLinesCh :
    ∀ (ls : List (List Char)), ls ≠ [] → (∀ l ∈ ls, '\n' ∉ l) →
      splitLinesCh (joinLinesCh ls) [] = ls := by
  intro ls
  induction ls with
  | nil => intro h _; exact absurd rfl h
  | cons l rest ih =>
    intro _ hnl
    rcases rest with _ | ⟨y, ys⟩
    · rw [show joinLinesCh [l] = l from rfl,
        splitLinesCh_no_newline_whole l (hnl l (List.mem_cons_self _ _)) []]
      simp
    · rw [show joinLinesCh (l :: y :: ys) = l ++ '\n' :: joinLinesCh (y :: ys) from rfl,
        splitLinesCh_append_newline l (hnl l (List.mem_cons_self _ _)) _ []]
      rw [ih (by simp) (fun p hp => hnl p (List.mem_cons_of_mem _ hp))]
      simp

theorem splitLines_joinLines (ls : List String) (hne : ls ≠ [])
    (hnl : ∀ s ∈ ls, '\n' ∉ s.data) : splitLines (joinLines ls) = ls := by
  rw [splitLines, joinLines]
  rw [show (⟨joinLinesCh (ls.map String.data)⟩ : String).data
      = joinLinesCh (ls.map String.data) from rfl]
  rw [splitLinesCh_joinLinesCh (ls.map String.data)
    (by simpa using hne)
    (by
      intro l hl
      rcases List.mem_map.mp hl with ⟨s, hs, he⟩
      exact he ▸ hnl s hs)]
  rw [List.map_map]
  have hid : ∀ s ∈ ls, ((fun l => (⟨l⟩ : String)) ∘ String.data) s = id s :=
    fun s _ => rfl
  rw [List.map_congr_left hid, List.map_id]

theorem dropWhile_head_false {p : Char → Bool} :
    ∀ (l : List Char) (c : Char), (l.dropWhile p).head? = some c → p c = false := by
  intro l
  induction l with
  | nil => intro c hc; simp at hc
  | cons a as ih =>
    intro c hc
    by_cases ha : p a
    · rw [List.dropWhile_cons, if_pos ha] at hc
      exact ih c hc
    · rw [List.dropWhile_cons, if_neg ha] at hc
      simp at hc
      rw [← hc]
      exact Bool.of_not_eq_true ha

theorem getLast?_of_suffix {l₁ l₂ : List Char} (h : l₁ <:+ l₂) (hne : l₁ ≠ []) :
    l₁.getLast? = l₂.getLast? := by
  rcases h with ⟨t, ht⟩
  rw [← ht, List.getLast?_append_of_ne_nil t hne]

theorem trimCh_head {l : List Char} {c : Char} (h : (trimCh l).head? = some c) :
    c.isWhitespace = false := by
  rw [trimCh] at h
  rw [List.head?_reverse] at h
  have hsfx : ((l.dropWhile Char.isWhitespace).reverse.dropWhile Char.isWhitespace) <:+
      (l.dropWhile Char.isWhitespace).reverse := List.dropWhile_suffix _
  have hne : ((l.dropWhile Char.isWhitespace).reverse.dropWhile Char.isWhitespace) ≠ [] := by
    intro heq
    rw [heq] at h
    simp at h
  rw [getLast?_of_suffix hsfx hne, List.getLast?_reverse] at h
  exact dropWhile_head_false l c h

theorem trimCh_last {l : List Char} {c : Char} (h : (trimCh l).getLast? = some c) :
    c.isWhitespace = false := by
  rw [trimCh, List.getLast?_reverse] at h
  exact dropWhile_head_false _ c h

theorem dropWhile_eq_self_of_head {p : Char → Bool} {l : List Char}
    (h : ∀ c, l.head? = some c → p c = false) : l.dropWhile p = l := by
  rcases l with _ | ⟨a, as⟩
  · simp
  · rw [List.dropWhile_cons, if_neg (by simp [h a rfl])]

theorem trimCh_of_clean {l : List Char}
    (h1 : ∀ c, l.head? = some c → c.isWhitespace = false)
    (h2 : ∀ c, l.getLast? = some c → c.isWhitespace = false) : trimCh l = l := by
  rw [trimCh, dropWhile_eq_self_of_head h1]
  rw [dropWhile_eq_self_of_head (by
    intro c hc
    rw [List.head?_reverse] at hc
    exact h2 c hc)]
  exact List.reverse_reverse l

theorem trimCh_idem (l : List Char) : trimCh (trimCh l) = trimCh l :=
  trimCh_of_clean (fun c hc => trimCh_head hc) (fun c hc => trimCh_last hc)

theorem trimCh_subset (l : List Char) : trimCh l ⊆ l := by
  intro c hc
  rw [trimCh] at hc
  rw [List.mem_reverse] at hc
  have h1 := (List.dropWhile_suffix Char.isWhitespace
    (l := (l.dropWhile Char.isWhitespace).reverse)).sublist.subset hc
  rw [List.mem_reverse] at h1
  exact (List.dropWhile_suffix Char.isWhitespace).sublist.subset h1

theorem pyStrip_idem (s : String) : pyStrip (pyStrip s) = pyStrip s := by
  rw [pyStrip, pyStrip]
  rw [show (⟨trimCh s.data⟩ : String).data = trimCh s.data from rfl, trimCh_idem]

theorem tokenizeCodes_good (t : String) :
    ∀ s ∈ tokenizeCodes t, pyStrip s = s ∧ s ≠ "" ∧ '\n' ∉ s.data := by
  intro s hs
  rw [tokenizeCodes] at hs
  rcases List.mem_filter.mp hs with ⟨hmem, hne⟩
  rcases List.mem_map.mp hmem with ⟨raw, hraw, he⟩
  subst he
  refine ⟨pyStrip_idem raw, by simpa using hne, ?_⟩
  intro hmem2
  rw [splitLines] at hraw
  rcases List.mem_map.mp hraw with ⟨p, hp, he2⟩
  have hnop : '\n' ∉ p :=
    splitLinesCh_no_newline t.data [] (by intro c hc; simp at hc) p hp
  have h1 : '\n' ∈ trimCh raw.data := hmem2
  have h2 : '\n' ∈ raw.data := trimCh_subset _ h1
  rw [← he2] at h2
  exact hnop h2

theorem mergeCodes_tokens (t : String) (new : List String) (hne : new ≠ [])
    (hgood : ∀ c ∈ new, pyStrip c = c ∧ c ≠ "" ∧ '\n' ∉ c.data) :
    tokenizeCodes (mergeCodes t new) =
      py_sorted (pyDedup (tokenizeCodes t ++ new)) := by
  have hmemL : ∀ x ∈ py_sorted (pyDedup (tokenizeCodes t ++ new)),
      pyStrip x = x ∧ x ≠ "" ∧ '\n' ∉ x.data := by
    intro x hx
    have hd : x ∈ pyDedup (tokenizeCodes t ++ new) :=
      (py_sorted_perm _).mem_iff.mp hx
    have hx2 : x ∈ tokenizeCodes t ++ new := (pyDedup_mem _ x).mp hd
    rcases List.mem_append.mp hx2 with h | h
    · exact tokenizeCodes_good t x h
    · exact hgood x h
  have hLne : py_sorted (pyDedup (tokenizeCodes t ++ new)) ≠ [] := by
    obtain ⟨c, hc⟩ := List.exists_mem_of_ne_nil new hne
    intro heq
    have hd : c ∈ pyDedup (tokenizeCodes t ++ new) :=
      (pyDedup_mem _ c).mpr (List.mem_append_right _ hc)
    have hl : c ∈ py_sorted (pyDedup (tokenizeCodes t ++ new)) :=
      (py_sorted_perm _).mem_iff.mpr hd
    rw [heq] at hl
    simp at hl
  rw [mergeCodes, tokenizeCodes]
  rw [splitLines_joinLines _ hLne (fun s hs => (hmemL s hs).2.2)]
  have hid : ∀ s ∈ py_sorted (pyDedup (tokenizeCodes t ++ new)), pyStrip s = id s :=
    fun s hs => (hmemL s hs).1
  rw [List.map_congr_left hid, List.map_id]
  rw [List.filter_eq_self.mpr (fun s hs => by simpa using (hmemL s hs).2.1)]

/-- C5 counterexample: the claim as stated (idempotence for every supplied
batch) is false — a supplied code with an embedded newline, which the
pipeline leaves intact since pandas only strips leading/trailing
whitespace, grows the Codes text on a second application of the same
batch. -/
theorem merge_codes_cx :
    mergeCodes "a" ["a\nb"] = "a\na\nb" ∧
    mergeCodes (mergeCodes "a" ["a\nb"]) ["a\nb"] = "a\na\nb\nb" ∧
    mergeCodes (mergeCodes "a" ["a\nb"]) ["a\nb"] ≠ mergeCodes "a" ["a\nb"] := by
  refine ⟨by decide, by decide, by decide⟩

/-- C5 (amended): for every class with an existing Codes element and every
supplied batch whose codes are non-empty, whitespace-trimmed, and free of
embedded newlines, the resulting element text is the sorted newline-joined
set union of the existing tokenized codes and the supplied codes — its
token list is exactly the union with no duplicates, sorted ascending — and
the operation is idempotent: applying the same batch to the merged text
leaves it unchanged.  (Without the no-embedded-newline restriction the
idempotence half is refuted by `merge_codes_cx`.) -/
theorem merge_codes_spec (t : String) (new : List String) (hne : new ≠ [])
    (hgood : ∀ c ∈ new, pyStrip c = c ∧ c ≠ "" ∧ '\n' ∉ c.data) :
    (∀ s, s ∈ tokenizeCodes (mergeCodes t new) ↔ (s ∈ tokenizeCodes t ∨ s ∈ new)) ∧
    (tokenizeCodes (mergeCodes t new)).Nodup ∧
    List.Sorted (fun a b => pyLe a b) (tokenizeCodes (mergeCodes t new)) ∧
    mergeCodes (mergeCodes t new) new = mergeCodes t new := by
  have htok := mergeCodes_tokens t new hne hgood
  refine ⟨?_, ?_, ?_, ?_⟩
  · intro s
    rw [htok, (py_sorted_perm _).mem_iff, pyDedup_mem, List.mem_append]
  · rw [htok]
    exact (py_sorted_perm _).nodup_iff.mpr (pyDedup_nodup _)
  · rw [htok]
    exact py_sorted_sorted _
  · have hcanon : py_sorted (pyDedup
        (py_sorted (pyDedup (tokenizeCodes t ++ new)) ++ new)) =
        py_sorted (pyDedup (tokenizeCodes t ++ new)) := by
      have hx : ∀ x, x ∈ pyDedup (py_sorted (pyDedup (tokenizeCodes t ++ new)) ++ new) ↔
          x ∈ pyDedup (tokenizeCodes t ++ new) := by
        intro x
        rw [pyDedup_mem, List.mem_append, (py_sorted_perm _).mem_iff]
        constructor
        · rintro (h | h)
          · exact h
          · exact (pyDedup_mem _ x).mpr (List.mem_append_right _ h)
        · exact fun h => Or.inl h
      exact py_sorted_canonical _ _ (pyDedup_nodup _) (pyDedup_nodup _) hx
    show joinLines (py_sorted (pyDedup (tokenizeCodes (mergeCodes t new) ++ new)))
        = mergeCodes t new
    rw [htok, hcanon]
    rfl

/-- Witness for the amended C5 theorem at the claim's own example: existing
codes `X:1` merged with supplied `X:1, Y:2` yield the sorted union with no
duplicate, and re-applying the batch changes nothing. -/
theorem merge_codes_spec_witness :
    mergeCodes "X:1" ["X:1", "Y:2"] = "X:1\nY:2" ∧
    tokenizeCodes (mergeCodes "X:1" ["X:1", "Y:2"]) = ["X:1", "Y:2"] ∧
    mergeCodes (mergeCodes "X:1" ["X:1", "Y:2"]) ["X:1", "Y:2"] =
      mergeCodes "X:1" ["X:1", "Y:2"] := by
  refine ⟨by decide, by decide, ?_⟩
  exact (merge_codes_spec "X:1" ["X:1", "Y:2"] (by decide) (by decide)).2.2.2

end OwlTools
